import Mathlib

/-!
Verification of the in-memory metric store of `go-metrics-svc`
(`src/cmd/server/main.go`).

The store keeps a slice of `Metric` values.  `Add` scans the slice for an
entry with the same `(Name, Type)` pair: a gauge entry's value is replaced,
a counter entry's value is incremented (Go `int64` addition, which wraps
modulo 2^64), and when no entry matches the metric is appended.  `Get`
returns a copy of the slice.

Modelling choices:
* The dynamically typed `Value interface{}` field is a sum `GoValue` of a
  signed 64-bit integer payload (counters) and a float payload (gauges).
  The store never performs arithmetic on gauge payloads — it only copies
  them — so the float payload is carried opaquely as a rational.
* Go's `x.(int64)` type assertion panics when the dynamic type is not
  `int64`; `addLoop` therefore returns `Option`, with `none` standing for
  the panic.
* Go `int64` addition wraps around; `wrap64` reduces an unbounded integer
  into the signed 64-bit range the way the machine addition does.
-/

set_option maxHeartbeats 1000000

namespace MetricsSvc

/-- Source type `MetricType`: the closed enumeration of metric kinds. -/
inductive MetricType where
  | GaugeType
  | CounterType
deriving DecidableEq, Repr

/-- The dynamically typed payload held by `Metric.Value` (`interface{}` in
the source): either an `int64` (counter updates) or a `float64` (gauge
updates, carried opaquely — the store never computes with it). -/
inductive GoValue where
  | vInt : Int → GoValue
  | vFloat : Rat → GoValue
deriving DecidableEq, Repr

/-- Source type `Metric`: a name, a kind and a dynamically typed value. -/
structure Metric where
  Name : String
  Type' : MetricType
  Value : GoValue
deriving DecidableEq, Repr

/-- Reduction of an unbounded integer into the signed 64-bit range, as Go's
wrapping `int64` addition produces. -/
def wrap64 (z : Int) : Int := (z + 2 ^ 63) % 2 ^ 64 - 2 ^ 63

/-- The loop body of `MemStorageImpl.Add`: scan the entries for the first
one matching the metric's `(Name, Type)` pair; replace a matching gauge's
value, accumulate into a matching counter (wrapping `int64` addition,
`none` when either dynamic value fails the `int64` type assertion), and
append the metric when no entry matches. -/
def addLoop : List Metric → Metric → Option (List Metric)
  | [], m => some [m]
  | e :: rest, m =>
    if e.Name = m.Name ∧ e.Type' = m.Type' then
      match m.Type' with
      | .GaugeType => some ({ e with Value := m.Value } :: rest)
      | .CounterType =>
        match e.Value, m.Value with
        | .vInt a, .vInt b => some ({ e with Value := .vInt (wrap64 (a + b)) } :: rest)
        | _, _ => none
    else
      (addLoop rest m).map (e :: ·)

/-- Source type `MemStorageImpl`, without the `sync.RWMutex` (the lock
is modelled separately by the interleaving semantics below). -/
structure MemStorageImpl where
  metrics : List Metric
deriving DecidableEq, Repr

/-- Source constructor `NewMemStorage`: the empty store. -/
def NewMemStorage : MemStorageImpl := ⟨[]⟩

/-- Source method `MemStorageImpl.Add`; `none` models the panic of a
failed `int64` type assertion. -/
def MemStorageImpl.Add (s : MemStorageImpl) (m : Metric) : Option MemStorageImpl :=
  (addLoop s.metrics m).map MemStorageImpl.mk

/-- Source method `MemStorageImpl.Get`: a copy of the stored entries (in
the pure model a copy is the list itself; the aliasing consequences of the
copy are modelled by the heap semantics below). -/
def MemStorageImpl.Get (s : MemStorageImpl) : List Metric := s.metrics

/-- Run a sequence of `Add` calls from a given slice of entries, stopping
at the first panic. -/
def addAllFrom : List Metric → List Metric → Option (List Metric)
  | st, [] => some st
  | st, m :: ms =>
    match addLoop st m with
    | some st' => addAllFrom st' ms
    | none => none

/-- Run a sequence of `Add` calls on a freshly created store. -/
def runAdds (ms : List Metric) : Option MemStorageImpl :=
  (addAllFrom NewMemStorage.metrics ms).map MemStorageImpl.mk

/-- First stored value for the key `(n, t)`, mirroring the scan of `Add`. -/
def lookupKey : List Metric → String → MetricType → Option GoValue
  | [], _, _ => none
  | e :: rest, n, t => if e.Name = n ∧ e.Type' = t then some e.Value else lookupKey rest n t

/-- Number of stored entries with key `(n, t)`. -/
def countKey (st : List Metric) (n : String) (t : MetricType) : Nat :=
  st.countP (fun e => decide (e.Name = n ∧ e.Type' = t))

/-- At most one entry per `(name, kind)` pair. -/
def UniqueKeys (st : List Metric) : Prop :=
  st.Pairwise (fun a b => ¬(a.Name = b.Name ∧ a.Type' = b.Type'))

/-- The caller contract: the dynamic value representation matches the kind
(`int64` for counters, `float64` for gauges). -/
def wellTyped (m : Metric) : Bool :=
  match m.Type', m.Value with
  | .CounterType, .vInt _ => true
  | .GaugeType, .vFloat _ => true
  | _, _ => false

/-- The identity key of a metric. -/
def keyOf (m : Metric) : String × MetricType := (m.Name, m.Type')

/-- The spec's description of `Get`'s ordering ("ordered by the first
insertion of each distinct `(name, kind)` key: a new key is appended at the
end, an update to an existing key never changes its position"), modelled
from the spec as a function on key sequences. -/
def extendKeys : List (String × MetricType) → List (String × MetricType) → List (String × MetricType)
  | ks, [] => ks
  | ks, k :: rest => extendKeys (if k ∈ ks then ks else ks ++ [k]) rest

/-! ### A heap model of slice aliasing

`Get` builds its result with `make` + `copy`, so the returned slice never
shares a backing array with the live store, while `Add` mutates the store's
backing array in place.  The heap model makes that aliasing explicit:
array identifiers index into a heap of arrays, `Get` allocates a fresh
array holding a copy of the store's contents, and `Add` writes (only) to
the store's array. -/

/-- A heap of allocated backing arrays; the identifier of an array is its
index, and fresh identifiers are allocated at the end. -/
structure Heap where
  arrays : List (List Metric)
deriving DecidableEq, Repr

/-- Allocate a fresh array holding `xs`; returns the new heap and the fresh
identifier. -/
def Heap.alloc (h : Heap) (xs : List Metric) : Heap × Nat :=
  (⟨h.arrays ++ [xs]⟩, h.arrays.length)

/-- Contents of the array with identifier `i`. -/
def Heap.read (h : Heap) (i : Nat) : List Metric :=
  h.arrays.getD i []

/-- Overwrite, in place, the array with identifier `i`. -/
def Heap.write (h : Heap) (i : Nat) (xs : List Metric) : Heap :=
  ⟨h.arrays.set i xs⟩

/-- The operation `Get` at the heap level: allocate a fresh array (`make`), copy the
store's entries into it (`copy`) and return its identifier. -/
def hGet (h : Heap) (storeId : Nat) : Heap × Nat :=
  h.alloc (h.read storeId)

/-- The operation `Add` at the heap level: run the scan-and-merge on the store's array
and write the result back in place to the same array. -/
def hAdd (h : Heap) (storeId : Nat) (m : Metric) : Option Heap :=
  (addLoop (h.read storeId) m).map (h.write storeId)

/-! ### An interleaving model of concurrent `Add` calls

`Add` acquires the store's mutex before the scan and releases it on
return, so the whole read-modify-write runs under exclusive access.  The
model runs any number of threads, each executing one `Add m`: a thread
acquires the free lock, scans the store (recording the state it observed),
merges its update into the store *as observed by its scan*, and releases.
A lost update would occur exactly when the scanned view is stale; holding
the lock from scan to merge is what rules that out. -/

/-- How far the thread holding the lock has progressed through the body of
`Add`: it has just acquired the lock, it has scanned the entries (recording
the state it observed), or it has written the merged result back. -/
inductive Phase where
  | acquired : Phase
  | scanned : List Metric → Phase
  | wrote : Phase
deriving DecidableEq, Repr

/-- Global state of the concurrent system: the store's entries, the mutex
(`none` when free, otherwise the holder's progress), the number of threads
that have not yet started their `Add`, and the number that have finished. -/
structure CState where
  store : List Metric
  lock : Option Phase
  waiting : Nat
  done : Nat
deriving DecidableEq, Repr

/-- One interleaving step of the system in which every thread performs
`Add m`.  Only the lock holder may touch the store, and the lock is held
from before the scan until after the merge. -/
inductive CStep (m : Metric) : CState → CState → Prop where
  | acquire (st : List Metric) (w d : Nat) :
      CStep m ⟨st, none, w + 1, d⟩ ⟨st, some .acquired, w, d⟩
  | scan (st : List Metric) (w d : Nat) :
      CStep m ⟨st, some .acquired, w, d⟩ ⟨st, some (.scanned st), w, d⟩
  | merge (st view st' : List Metric) (w d : Nat) :
      addLoop view m = some st' →
      CStep m ⟨st, some (.scanned view), w, d⟩ ⟨st', some .wrote, w, d⟩
  | release (st : List Metric) (w d : Nat) :
      CStep m ⟨st, some .wrote, w, d⟩ ⟨st, none, w, d + 1⟩

/-- Initial state: empty store, free lock, `N` threads yet to run. -/
def initState (N : Nat) : CState := ⟨[], none, N, 0⟩

/-- Reachability under interleaved `CStep`s. -/
def Reaches (m : Metric) : CState → CState → Prop :=
  Relation.ReflTransGen (CStep m)

/-- Number of threads whose merge has reached the store. -/
def writesOf (s : CState) : Nat :=
  s.done + (if s.lock = some .wrote then 1 else 0)

/-- One when the lock is held, zero otherwise. -/
def lockCount : Option Phase → Nat
  | none => 0
  | some _ => 1

/-- The store after `k` sequential merges of the counter metric `(n, 1)`
starting from the empty store: a single counter entry holding the wrapped
running sum `k`. -/
def storeAfter (n : String) (k : Nat) : List Metric :=
  if k = 0 then [] else [⟨n, .CounterType, .vInt (wrap64 k)⟩]

/-- Inductive invariant of the `N`-thread counter stress system. -/
def Inv (N : Nat) (n : String) (s : CState) : Prop :=
  s.waiting + s.done + lockCount s.lock = N ∧
  s.store = storeAfter n (writesOf s) ∧
  ∀ view, s.lock = some (.scanned view) → view = s.store

example : addLoop [] ⟨"x", .CounterType, .vInt 1⟩ = some [⟨"x", .CounterType, .vInt 1⟩] := by
  decide

example :
    addAllFrom [] [⟨"x", .CounterType, .vInt 1⟩, ⟨"x", .CounterType, .vInt 2⟩] =
      some [⟨"x", .CounterType, .vInt 3⟩] := by decide

example :
    addAllFrom [] [⟨"x", .GaugeType, .vFloat 1⟩, ⟨"x", .CounterType, .vInt 5⟩] =
      some [⟨"x", .GaugeType, .vFloat 1⟩, ⟨"x", .CounterType, .vInt 5⟩] := by decide

/-! ### Structural lemmas about the `Add` scan -/

theorem addLoop_nomatch (st : List Metric) (m : Metric)
    (h : ∀ e ∈ st, ¬(e.Name = m.Name ∧ e.Type' = m.Type')) :
    addLoop st m = some (st ++ [m]) := by
  induction st with
  | nil => rfl
  | cons e rest ih =>
    have he := h e (List.mem_cons_self e rest)
    have hrest := ih (fun x hx => h x (List.mem_cons_of_mem e hx))
    simp only [addLoop, if_neg he, hrest, Option.map_some']
    rfl

theorem addLoop_found_gauge (pre post : List Metric) (e m : Metric)
    (hpre : ∀ x ∈ pre, ¬(x.Name = m.Name ∧ x.Type' = m.Type'))
    (he : e.Name = m.Name ∧ e.Type' = m.Type') (ht : m.Type' = .GaugeType) :
    addLoop (pre ++ e :: post) m = some (pre ++ { e with Value := m.Value } :: post) := by
  induction pre with
  | nil =>
    cases m with
    | mk n t v =>
      simp only at ht
      subst ht
      simp only [List.nil_append, addLoop, if_pos he]
  | cons x pre ih =>
    have hx := hpre x (List.mem_cons_self x pre)
    have hrest := ih (fun y hy => hpre y (List.mem_cons_of_mem x hy))
    simp only [List.cons_append, addLoop, List.append_eq, if_neg hx, hrest, Option.map_some']

theorem addLoop_found_counter (pre post : List Metric) (e m : Metric) (a b : Int)
    (hpre : ∀ x ∈ pre, ¬(x.Name = m.Name ∧ x.Type' = m.Type'))
    (he : e.Name = m.Name ∧ e.Type' = m.Type') (ht : m.Type' = .CounterType)
    (ha : e.Value = .vInt a) (hb : m.Value = .vInt b) :
    addLoop (pre ++ e :: post) m =
      some (pre ++ { e with Value := .vInt (wrap64 (a + b)) } :: post) := by
  induction pre with
  | nil =>
    cases m with
    | mk n t v =>
      simp only at ht hb
      subst ht
      subst hb
      simp only [List.nil_append, addLoop, if_pos he, ha]
  | cons x pre ih =>
    have hx := hpre x (List.mem_cons_self x pre)
    have hrest := ih (fun y hy => hpre y (List.mem_cons_of_mem x hy))
    simp only [List.cons_append, addLoop, List.append_eq, if_neg hx, hrest, Option.map_some']

theorem first_match_split (st : List Metric) (m : Metric) :
    (∀ e ∈ st, ¬(e.Name = m.Name ∧ e.Type' = m.Type')) ∨
    ∃ pre e post, st = pre ++ e :: post ∧
      (∀ x ∈ pre, ¬(x.Name = m.Name ∧ x.Type' = m.Type')) ∧
      e.Name = m.Name ∧ e.Type' = m.Type' := by
  induction st with
  | nil => left; intro e he; cases he
  | cons x rest ih =>
    by_cases hx : x.Name = m.Name ∧ x.Type' = m.Type'
    · right
      refine ⟨[], x, rest, rfl, ?_, hx⟩
      intro y hy
      cases hy
    · rcases ih with h | ⟨pre, e, post, hsplit, hpre, he⟩
      · left
        intro e hme
        rcases List.mem_cons.mp hme with rfl | hmem
        · exact hx
        · exact h e hmem
      · right
        refine ⟨x :: pre, e, post, by rw [hsplit, List.cons_append], ?_, he⟩
        intro y hy
        rcases List.mem_cons.mp hy with rfl | hmem
        · exact hx
        · exact hpre y hmem

theorem lookupKey_eq_none_iff (st : List Metric) (n : String) (t : MetricType) :
    lookupKey st n t = none ↔ ∀ e ∈ st, ¬(e.Name = n ∧ e.Type' = t) := by
  induction st with
  | nil => simp [lookupKey]
  | cons e rest ih =>
    by_cases he : e.Name = n ∧ e.Type' = t
    · simp [lookupKey, if_pos he, he]
    · simp only [lookupKey, if_neg he, ih, List.mem_cons]
      constructor
      · intro h x hx
        rcases hx with rfl | hx
        · exact he
        · exact h x hx
      · intro h x hx
        exact h x (Or.inr hx)

theorem lookupKey_some_split (st : List Metric) (n : String) (t : MetricType) (v : GoValue)
    (h : lookupKey st n t = some v) :
    ∃ pre e post, st = pre ++ e :: post ∧
      (∀ x ∈ pre, ¬(x.Name = n ∧ x.Type' = t)) ∧
      e.Name = n ∧ e.Type' = t ∧ e.Value = v := by
  induction st with
  | nil => simp [lookupKey] at h
  | cons e rest ih =>
    by_cases he : e.Name = n ∧ e.Type' = t
    · refine ⟨[], e, rest, rfl, ?_, he.1, he.2, ?_⟩
      · intro y hy
        cases hy
      · simp only [lookupKey, if_pos he] at h
        exact Option.some_injective _ h
    · simp only [lookupKey, if_neg he] at h
      obtain ⟨pre, e', post, hsplit, hpre, h1, h2, h3⟩ := ih h
      refine ⟨e :: pre, e', post, by rw [hsplit, List.cons_append], ?_, h1, h2, h3⟩
      intro y hy
      rcases List.mem_cons.mp hy with rfl | hmem
      · exact he
      · exact hpre y hmem

theorem lookupKey_append_nomatch (pre rest : List Metric) (n : String) (t : MetricType)
    (hpre : ∀ x ∈ pre, ¬(x.Name = n ∧ x.Type' = t)) :
    lookupKey (pre ++ rest) n t = lookupKey rest n t := by
  induction pre with
  | nil => rfl
  | cons x pre ih =>
    have hx := hpre x (List.mem_cons_self x pre)
    simp only [List.cons_append, lookupKey, if_neg hx]
    exact ih (fun y hy => hpre y (List.mem_cons_of_mem x hy))

theorem countKey_append (l1 l2 : List Metric) (n : String) (t : MetricType) :
    countKey (l1 ++ l2) n t = countKey l1 n t + countKey l2 n t :=
  List.countP_append _ _ _

theorem countKey_eq_zero (l : List Metric) (n : String) (t : MetricType)
    (h : ∀ x ∈ l, ¬(x.Name = n ∧ x.Type' = t)) : countKey l n t = 0 := by
  rw [countKey, List.countP_eq_zero]
  intro x hx
  simpa using h x hx

theorem countKey_cons_match (l : List Metric) (e : Metric) (n : String) (t : MetricType)
    (he : e.Name = n ∧ e.Type' = t) :
    countKey (e :: l) n t = countKey l n t + 1 := by
  rw [countKey, List.countP_cons]
  simp [countKey, he]

theorem addLoop_found_counter_panic (pre post : List Metric) (e m : Metric)
    (hpre : ∀ x ∈ pre, ¬(x.Name = m.Name ∧ x.Type' = m.Type'))
    (he : e.Name = m.Name ∧ e.Type' = m.Type') (ht : m.Type' = .CounterType)
    (hnv : ∀ a b : Int, e.Value = .vInt a → m.Value = .vInt b → False) :
    addLoop (pre ++ e :: post) m = none := by
  induction pre with
  | nil =>
    cases m with
    | mk n t v =>
      simp only at ht
      subst ht
      simp only [List.nil_append, addLoop, if_pos he]
  | cons x pre ih =>
    have hx := hpre x (List.mem_cons_self x pre)
    have hrest := ih (fun y hy => hpre y (List.mem_cons_of_mem x hy))
    simp only [List.cons_append, addLoop, List.append_eq, if_neg hx, hrest, Option.map_none']

theorem uniqueKeys_iff_map (st : List Metric) :
    UniqueKeys st ↔ (st.map keyOf).Pairwise (fun a b => a ≠ b) := by
  rw [UniqueKeys, List.pairwise_map]
  constructor
  · refine fun h => h.imp fun hab => ?_
    intro hk
    rw [keyOf, keyOf, Prod.mk.injEq] at hk
    exact hab hk
  · refine fun h => h.imp fun hab => ?_
    intro hk
    exact hab (by rw [keyOf, keyOf, Prod.mk.injEq]; exact hk)

theorem wellTyped_gauge_val (m : Metric) (ht : m.Type' = .GaugeType)
    (hm : wellTyped m = true) : ∃ q, m.Value = .vFloat q := by
  cases m with
  | mk n t v =>
    simp only at ht
    subst ht
    cases v with
    | vInt a => simp [wellTyped] at hm
    | vFloat q => exact ⟨q, rfl⟩

theorem wellTyped_counter_val (m : Metric) (ht : m.Type' = .CounterType)
    (hm : wellTyped m = true) : ∃ a, m.Value = .vInt a := by
  cases m with
  | mk n t v =>
    simp only at ht
    subst ht
    cases v with
    | vInt a => exact ⟨a, rfl⟩
    | vFloat q => simp [wellTyped] at hm

theorem wellTyped_of_gauge (m : Metric) (ht : m.Type' = .GaugeType) (q : Rat)
    (hv : m.Value = .vFloat q) : wellTyped m = true := by
  cases m with
  | mk n t v =>
    simp only at ht hv
    subst ht
    subst hv
    rfl

theorem wellTyped_of_counter (m : Metric) (ht : m.Type' = .CounterType) (a : Int)
    (hv : m.Value = .vInt a) : wellTyped m = true := by
  cases m with
  | mk n t v =>
    simp only at ht hv
    subst ht
    subst hv
    rfl

theorem addLoop_keys (st : List Metric) (m : Metric) (st' : List Metric)
    (h : addLoop st m = some st') :
    st'.map keyOf =
      if (m.Name, m.Type') ∈ st.map keyOf then st.map keyOf
      else st.map keyOf ++ [(m.Name, m.Type')] := by
  rcases first_match_split st m with hno | ⟨pre, e, post, rfl, hpre, he⟩
  · rw [addLoop_nomatch st m hno] at h
    obtain rfl := Option.some_injective _ h
    have hnm : (m.Name, m.Type') ∉ st.map keyOf := by
      intro hmem
      obtain ⟨e, hme, hke⟩ := List.mem_map.mp hmem
      rw [keyOf, Prod.mk.injEq] at hke
      exact hno e hme hke
    rw [if_neg hnm]
    simp [keyOf]
  · have hmem : (m.Name, m.Type') ∈ (pre ++ e :: post).map keyOf := by
      refine List.mem_map.mpr ⟨e, by simp, ?_⟩
      rw [keyOf, Prod.mk.injEq]
      exact he
    rw [if_pos hmem]
    cases ht : m.Type' with
    | GaugeType =>
      rw [addLoop_found_gauge pre post e m hpre he ht] at h
      obtain rfl := Option.some_injective _ h
      simp [keyOf]
    | CounterType =>
      cases hev : e.Value with
      | vInt a =>
        cases hmv : m.Value with
        | vInt b =>
          rw [addLoop_found_counter pre post e m a b hpre he ht hev hmv] at h
          obtain rfl := Option.some_injective _ h
          simp [keyOf]
        | vFloat q =>
          rw [addLoop_found_counter_panic pre post e m hpre he ht] at h
          · cases h
          · intro a' b' _ hb
            rw [hmv] at hb
            cases hb
      | vFloat q =>
        rw [addLoop_found_counter_panic pre post e m hpre he ht] at h
        · cases h
        · intro a' b' ha _
          rw [hev] at ha
          cases ha

theorem addLoop_uniqueKeys (st : List Metric) (m : Metric) (st' : List Metric)
    (hu : UniqueKeys st) (h : addLoop st m = some st') : UniqueKeys st' := by
  rw [uniqueKeys_iff_map] at hu ⊢
  rw [addLoop_keys st m st' h]
  split
  · exact hu
  · rename_i hmem
    rw [List.pairwise_append]
    refine ⟨hu, List.pairwise_singleton _ _, ?_⟩
    intro a ha b hb
    rw [List.mem_singleton] at hb
    subst hb
    intro hab
    subst hab
    exact hmem ha

theorem addLoop_total (st : List Metric) (m : Metric)
    (hst : ∀ e ∈ st, wellTyped e = true) (hm : wellTyped m = true) :
    ∃ st', addLoop st m = some st' ∧ ∀ e ∈ st', wellTyped e = true := by
  rcases first_match_split st m with hno | ⟨pre, e, post, rfl, hpre, he⟩
  · refine ⟨st ++ [m], addLoop_nomatch st m hno, ?_⟩
    intro x hx
    rcases List.mem_append.mp hx with hx | hx
    · exact hst x hx
    · rw [List.mem_singleton] at hx
      subst hx
      exact hm
  · have hewt : wellTyped e = true := hst e (by simp)
    cases ht : m.Type' with
    | GaugeType =>
      have hte : e.Type' = MetricType.GaugeType := by rw [he.2, ht]
      obtain ⟨q, hq⟩ := wellTyped_gauge_val m ht hm
      refine ⟨pre ++ { e with Value := m.Value } :: post,
        addLoop_found_gauge pre post e m hpre he ht, ?_⟩
      intro x hx
      rcases List.mem_append.mp hx with hx | hx
      · exact hst x (by simp [hx])
      · rcases List.mem_cons.mp hx with rfl | hx
        · exact wellTyped_of_gauge _ hte q hq
        · exact hst x (by simp [hx])
    | CounterType =>
      have hte : e.Type' = MetricType.CounterType := by rw [he.2, ht]
      obtain ⟨a, hev⟩ := wellTyped_counter_val e hte hewt
      obtain ⟨b, hmv⟩ := wellTyped_counter_val m ht hm
      refine ⟨pre ++ { e with Value := .vInt (wrap64 (a + b)) } :: post,
        addLoop_found_counter pre post e m a b hpre he ht hev hmv, ?_⟩
      intro x hx
      rcases List.mem_append.mp hx with hx | hx
      · exact hst x (by simp [hx])
      · rcases List.mem_cons.mp hx with rfl | hx
        · exact wellTyped_of_counter _ hte (wrap64 (a + b)) rfl
        · exact hst x (by simp [hx])

theorem wrap64_wrap_add (a b : Int) : wrap64 (wrap64 a + b) = wrap64 (a + b) := by
  have h64 : (2 : Int) ^ 64 = 18446744073709551616 := by norm_num
  have h63 : (2 : Int) ^ 63 = 9223372036854775808 := by norm_num
  rw [wrap64, wrap64, wrap64, h63, h64]
  omega

theorem wrap64_eq_self (z : Int) (h1 : -(2 ^ 63) ≤ z) (h2 : z < 2 ^ 63) : wrap64 z = z := by
  have h64 : (2 : Int) ^ 64 = 18446744073709551616 := by norm_num
  have h63 : (2 : Int) ^ 63 = 9223372036854775808 := by norm_num
  rw [wrap64, h63, h64]
  rw [h63] at h1 h2
  omega

theorem addAllFrom_total (ms : List Metric) :
    ∀ st, (∀ e ∈ st, wellTyped e = true) → (∀ m ∈ ms, wellTyped m = true) →
      ∃ st', addAllFrom st ms = some st' ∧ ∀ e ∈ st', wellTyped e = true := by
  induction ms with
  | nil => exact fun st hst _ => ⟨st, rfl, hst⟩
  | cons m ms ih =>
    intro st hst hms
    obtain ⟨st1, h1, hwt1⟩ := addLoop_total st m hst (hms m (by simp))
    obtain ⟨st', h2, hwt'⟩ := ih st1 hwt1 (fun x hx => hms x (by simp [hx]))
    refine ⟨st', ?_, hwt'⟩
    simp only [addAllFrom, h1]
    exact h2

theorem addAllFrom_uniqueKeys (ms : List Metric) :
    ∀ st st', UniqueKeys st → addAllFrom st ms = some st' → UniqueKeys st' := by
  induction ms with
  | nil =>
    intro st st' hu h
    obtain rfl := Option.some_injective _ h
    exact hu
  | cons m ms ih =>
    intro st st' hu h
    cases h1 : addLoop st m with
    | none => rw [addAllFrom, h1] at h; cases h
    | some st1 =>
      rw [addAllFrom, h1] at h
      exact ih st1 st' (addLoop_uniqueKeys st m st1 hu h1) h

theorem addAllFrom_keys (ms : List Metric) :
    ∀ st st', addAllFrom st ms = some st' →
      st'.map keyOf = extendKeys (st.map keyOf) (ms.map keyOf) := by
  induction ms with
  | nil =>
    intro st st' h
    obtain rfl := Option.some_injective _ h
    rfl
  | cons m ms ih =>
    intro st st' h
    cases h1 : addLoop st m with
    | none => rw [addAllFrom, h1] at h; cases h
    | some st1 =>
      rw [addAllFrom, h1] at h
      have hkeys := addLoop_keys st m st1 h1
      have := ih st1 st' h
      rw [this, hkeys]
      rfl

/-! ### Invariant proofs for the interleaving model -/

theorem addLoop_storeAfter (n : String) (k : Nat) :
    addLoop (storeAfter n k) ⟨n, .CounterType, .vInt 1⟩ = some (storeAfter n (k + 1)) := by
  cases k with
  | zero =>
    have h1 : wrap64 1 = 1 := wrap64_eq_self 1 (by norm_num) (by norm_num)
    simp [storeAfter, addLoop, h1]
  | succ k =>
    have hcast : ((k : Int) + 1) = ((k + 1 : Nat) : Int) := by push_cast; ring
    have heval := addLoop_found_counter [] []
      ⟨n, .CounterType, .vInt (wrap64 ((k + 1 : Nat) : Int))⟩
      ⟨n, .CounterType, .vInt 1⟩ (wrap64 ((k + 1 : Nat) : Int)) 1
      (by intro y hy; cases hy) ⟨rfl, rfl⟩ rfl rfl rfl
    simp only [List.nil_append] at heval
    have hw : wrap64 (wrap64 ((k + 1 : Nat) : Int) + 1) = wrap64 ((k + 2 : Nat) : Int) := by
      rw [wrap64_wrap_add]
      push_cast
      ring_nf
    rw [storeAfter, if_neg (Nat.succ_ne_zero k), storeAfter,
      if_neg (Nat.succ_ne_zero (k + 1)), heval, hw]

theorem inv_init (N : Nat) (n : String) : Inv N n (initState N) := by
  refine ⟨by simp [initState, lockCount], by simp [initState, writesOf, storeAfter], ?_⟩
  intro view hv
  simp [initState] at hv

theorem inv_step (N : Nat) (n : String) (s s' : CState) (hs : Inv N n s)
    (h : CStep ⟨n, .CounterType, .vInt 1⟩ s s') : Inv N n s' := by
  obtain ⟨hc, hst, hview⟩ := hs
  cases h with
  | acquire st w d =>
    simp only [lockCount] at hc
    refine ⟨by simp [lockCount]; omega, ?_, ?_⟩
    · simpa [writesOf] using hst
    · intro view hv
      simp at hv
  | scan st w d =>
    refine ⟨by simpa [lockCount] using hc, ?_, ?_⟩
    · simpa [writesOf] using hst
    · intro view hv
      simp only [Option.some.injEq, Phase.scanned.injEq] at hv
      exact hv.symm
  | merge st view st' w d hAdd =>
    have hv : view = st := hview view rfl
    have hst' : st = storeAfter n d := by simpa [writesOf] using hst
    have heval : addLoop (storeAfter n d) ⟨n, .CounterType, .vInt 1⟩ = some st' := by
      rw [← hst', ← hv]
      exact hAdd
    have hstEq : st' = storeAfter n (d + 1) := by
      have h2 := addLoop_storeAfter n d
      rw [heval] at h2
      exact Option.some_injective _ h2
    refine ⟨by simpa [lockCount] using hc, ?_, ?_⟩
    · simpa [writesOf] using hstEq
    · intro view2 hv2
      simp at hv2
  | release st w d =>
    refine ⟨by simp [lockCount] at hc ⊢; omega, ?_, ?_⟩
    · simpa [writesOf] using hst
    · intro view hv
      simp at hv

theorem inv_reaches (N : Nat) (n : String) (s : CState)
    (h : Reaches ⟨n, .CounterType, .vInt 1⟩ (initState N) s) : Inv N n s := by
  induction h with
  | refl => exact inv_init N n
  | tail hab hbc ih => exact inv_step N n _ _ ih hbc

theorem reach_serial (n : String) (N : Nat) :
    ∀ k, k ≤ N →
      Reaches ⟨n, .CounterType, .vInt 1⟩ (initState N) ⟨storeAfter n k, none, N - k, k⟩ := by
  intro k
  induction k with
  | zero =>
    intro _
    have hstate : initState N = ⟨storeAfter n 0, none, N - 0, 0⟩ := by
      simp [initState, storeAfter]
    rw [← hstate]
    exact Relation.ReflTransGen.refl
  | succ k ih =>
    intro hk
    have hbase := ih (Nat.le_of_succ_le hk)
    have hw : N - k = (N - (k + 1)) + 1 := by omega
    rw [hw] at hbase
    have s1 := Relation.ReflTransGen.tail hbase
      (CStep.acquire (storeAfter n k) (N - (k + 1)) k)
    have s2 := Relation.ReflTransGen.tail s1
      (CStep.scan (storeAfter n k) (N - (k + 1)) k)
    have s3 := Relation.ReflTransGen.tail s2
      (CStep.merge (storeAfter n k) (storeAfter n k) (storeAfter n (k + 1)) (N - (k + 1)) k
        (addLoop_storeAfter n k))
    exact Relation.ReflTransGen.tail s3
      (CStep.release (storeAfter n (k + 1)) (N - (k + 1)) k)

/-! ### Lookup, count and frame helpers -/

theorem uniqueKeys_post_nomatch (pre : List Metric) (e : Metric) (post : List Metric)
    (h : UniqueKeys (pre ++ e :: post)) :
    ∀ x ∈ post, ¬(x.Name = e.Name ∧ x.Type' = e.Type') := by
  rw [UniqueKeys, List.pairwise_append] at h
  have h2 := h.2.1
  rw [List.pairwise_cons] at h2
  intro x hx hcon
  exact h2.1 x hx ⟨hcon.1.symm, hcon.2.symm⟩

theorem countKey_cons_nomatch (l : List Metric) (e : Metric) (n : String) (t : MetricType)
    (he : ¬(e.Name = n ∧ e.Type' = t)) :
    countKey (e :: l) n t = countKey l n t := by
  rw [countKey, List.countP_cons]
  simp [countKey, he]

theorem lookupKey_append_some (l1 l2 : List Metric) (n : String) (t : MetricType) (v : GoValue)
    (h : lookupKey l1 n t = some v) : lookupKey (l1 ++ l2) n t = some v := by
  induction l1 with
  | nil => cases h
  | cons e rest ih =>
    by_cases he : e.Name = n ∧ e.Type' = t
    · rw [lookupKey, if_pos he] at h
      rw [List.cons_append, lookupKey, if_pos he]
      exact h
    · rw [lookupKey, if_neg he] at h
      rw [List.cons_append, lookupKey, if_neg he]
      exact ih h

theorem lookupKey_append_none (l1 l2 : List Metric) (n : String) (t : MetricType)
    (h : lookupKey l1 n t = none) : lookupKey (l1 ++ l2) n t = lookupKey l2 n t :=
  lookupKey_append_nomatch l1 l2 n t ((lookupKey_eq_none_iff l1 n t).mp h)

/-- Full case analysis of a successful `Add`: either no entry matched and
the metric was appended, or the first matching entry had (only) its value
replaced. -/
theorem addLoop_cases (st : List Metric) (m : Metric) (st' : List Metric)
    (h : addLoop st m = some st') :
    (st' = st ++ [m] ∧ ∀ e ∈ st, ¬(e.Name = m.Name ∧ e.Type' = m.Type')) ∨
    ∃ pre e post v', st = pre ++ e :: post ∧
      st' = pre ++ { e with Value := v' } :: post ∧
      (∀ x ∈ pre, ¬(x.Name = m.Name ∧ x.Type' = m.Type')) ∧
      e.Name = m.Name ∧ e.Type' = m.Type' := by
  rcases first_match_split st m with hno | ⟨pre, e, post, rfl, hpre, he⟩
  · left
    rw [addLoop_nomatch st m hno] at h
    exact ⟨(Option.some_injective _ h).symm, hno⟩
  · right
    cases ht : m.Type' with
    | GaugeType =>
      rw [addLoop_found_gauge pre post e m hpre he ht] at h
      rw [← ht]
      exact ⟨pre, e, post, m.Value, rfl, (Option.some_injective _ h).symm, hpre, he⟩
    | CounterType =>
      rw [← ht]
      cases hev : e.Value with
      | vInt a =>
        cases hmv : m.Value with
        | vInt b =>
          rw [addLoop_found_counter pre post e m a b hpre he ht hev hmv] at h
          exact ⟨pre, e, post, .vInt (wrap64 (a + b)), rfl,
            (Option.some_injective _ h).symm, hpre, he⟩
        | vFloat q =>
          rw [addLoop_found_counter_panic pre post e m hpre he ht] at h
          · cases h
          · intro a' b' _ hb
            rw [hmv] at hb
            cases hb
      | vFloat q =>
        rw [addLoop_found_counter_panic pre post e m hpre he ht] at h
        · cases h
        · intro a' b' ha _
          rw [hev] at ha
          cases ha

theorem addLoop_countKey_one (st : List Metric) (m : Metric) (st' : List Metric)
    (hu : UniqueKeys st) (h : addLoop st m = some st') :
    countKey st' m.Name m.Type' = 1 := by
  rcases addLoop_cases st m st' h with ⟨rfl, hno⟩ | ⟨pre, e, post, v', rfl, rfl, hpre, he⟩
  · rw [countKey_append, countKey_eq_zero st m.Name m.Type' hno,
      countKey_cons_match [] m m.Name m.Type' ⟨rfl, rfl⟩]
    rfl
  · have hpost := uniqueKeys_post_nomatch pre e post hu
    have hpost' : ∀ x ∈ post, ¬(x.Name = m.Name ∧ x.Type' = m.Type') := by
      intro x hx hcon
      exact hpost x hx ⟨hcon.1.trans he.1.symm, hcon.2.trans he.2.symm⟩
    rw [countKey_append, countKey_eq_zero pre m.Name m.Type' hpre,
      countKey_cons_match post { e with Value := v' } m.Name m.Type' ⟨he.1, he.2⟩,
      countKey_eq_zero post m.Name m.Type' hpost']

theorem addLoop_lookup_frame (st : List Metric) (m : Metric) (st' : List Metric)
    (n : String) (t : MetricType) (h : addLoop st m = some st')
    (hk : ¬(n = m.Name ∧ t = m.Type')) :
    lookupKey st' n t = lookupKey st n t := by
  rcases addLoop_cases st m st' h with ⟨rfl, _⟩ | ⟨pre, e, post, v', rfl, rfl, hpre, he⟩
  · cases hl : lookupKey st n t with
    | some v => exact lookupKey_append_some st [m] n t v hl
    | none =>
      rw [lookupKey_append_none st [m] n t hl, lookupKey,
        if_neg (fun hcon => hk ⟨hcon.1.symm, hcon.2.symm⟩)]
      rfl
  · have hne : ¬(e.Name = n ∧ e.Type' = t) := by
      intro hcon
      exact hk ⟨hcon.1.symm.trans he.1, hcon.2.symm.trans he.2⟩
    cases hl : lookupKey pre n t with
    | some v =>
      rw [lookupKey_append_some pre _ n t v hl, lookupKey_append_some pre _ n t v hl]
    | none =>
      rw [lookupKey_append_none pre _ n t hl, lookupKey_append_none pre _ n t hl,
        lookupKey, lookupKey, if_neg hne, if_neg hne]

theorem addLoop_count_frame (st : List Metric) (m : Metric) (st' : List Metric)
    (n : String) (t : MetricType) (h : addLoop st m = some st')
    (hk : ¬(n = m.Name ∧ t = m.Type')) :
    countKey st' n t = countKey st n t := by
  rcases addLoop_cases st m st' h with ⟨rfl, _⟩ | ⟨pre, e, post, v', rfl, rfl, hpre, he⟩
  · rw [countKey_append, countKey_cons_nomatch [] m n t
      (fun hcon => hk ⟨hcon.1.symm, hcon.2.symm⟩)]
    rfl
  · have hne : ¬(e.Name = n ∧ e.Type' = t) := by
      intro hcon
      exact hk ⟨hcon.1.symm.trans he.1, hcon.2.symm.trans he.2⟩
    rw [countKey_append, countKey_append,
      countKey_cons_nomatch post { e with Value := v' } n t hne,
      countKey_cons_nomatch post e n t hne]

theorem addLoop_gauge_lookup (st : List Metric) (m : Metric) (st' : List Metric)
    (h : addLoop st m = some st') (ht : m.Type' = .GaugeType) :
    lookupKey st' m.Name m.Type' = some m.Value := by
  rcases first_match_split st m with hno | ⟨pre, e, post, rfl, hpre, he⟩
  · rw [addLoop_nomatch st m hno] at h
    obtain rfl := Option.some_injective _ h
    rw [lookupKey_append_none st [m] m.Name m.Type'
      ((lookupKey_eq_none_iff st m.Name m.Type').mpr hno), lookupKey, if_pos ⟨rfl, rfl⟩]
  · rw [addLoop_found_gauge pre post e m hpre he ht] at h
    obtain rfl := Option.some_injective _ h
    rw [lookupKey_append_nomatch pre _ m.Name m.Type' hpre, lookupKey, if_pos ⟨he.1, he.2⟩]

/-- Appending an entry with an absent key: the shape `Add` takes when no
entry matches, together with the resulting lookup. -/
theorem addLoop_new_key (st : List Metric) (m : Metric) (st' : List Metric)
    (h : addLoop st m = some st') (hno : lookupKey st m.Name m.Type' = none) :
    st' = st ++ [m] ∧ lookupKey st' m.Name m.Type' = some m.Value ∧
      countKey st' m.Name m.Type' = countKey st m.Name m.Type' + 1 := by
  have hno' := (lookupKey_eq_none_iff st m.Name m.Type').mp hno
  rw [addLoop_nomatch st m hno'] at h
  obtain rfl := Option.some_injective _ h
  refine ⟨rfl, ?_, ?_⟩
  · rw [lookupKey_append_none st [m] m.Name m.Type' hno, lookupKey, if_pos ⟨rfl, rfl⟩]
  · rw [countKey_append, countKey_cons_match [] m m.Name m.Type' ⟨rfl, rfl⟩]
    rfl

/-! ### Index-level helpers for the frame property -/

theorem getElem?_middle (pre : List Metric) (x : Metric) (post : List Metric) :
    (pre ++ x :: post)[pre.length]? = some x := by
  rw [List.getElem?_append_right (le_refl _)]
  simp

theorem getElem?_middle_ne (pre : List Metric) (x y : Metric) (post : List Metric) (i : Nat)
    (hne : i ≠ pre.length) : (pre ++ x :: post)[i]? = (pre ++ y :: post)[i]? := by
  rcases Nat.lt_or_ge i pre.length with hlt | hge
  · rw [List.getElem?_append_left hlt, List.getElem?_append_left hlt]
  · obtain ⟨k, rfl⟩ : ∃ k, i = pre.length + k + 1 := by
      refine ⟨i - pre.length - 1, ?_⟩
      omega
    rw [List.getElem?_append_right (by omega), List.getElem?_append_right (by omega)]
    have hk : pre.length + k + 1 - pre.length = k + 1 := by omega
    rw [hk]
    simp

theorem runAdds_eq_some (ms : List Metric) (s : MemStorageImpl) (h : runAdds ms = some s) :
    addAllFrom NewMemStorage.metrics ms = some s.metrics := by
  rw [runAdds] at h
  cases haf : addAllFrom NewMemStorage.metrics ms with
  | none => rw [haf] at h; cases h
  | some st =>
    rw [haf] at h
    simp only [Option.map_some'] at h
    obtain rfl := Option.some_injective _ h
    rfl

/-! ## Claim theorems -/

/-- C1, counterexample: the claim that `Add (n, Counter, d)` leaves the
stored value exactly `v + d` fails at the `int64` boundary — with the
stored counter at `2^63 - 1`, adding `1` wraps to `-2^63`, which is not
`(2^63 - 1) + 1`. -/
theorem counter_add_exact_sum_cex :
    addLoop [⟨"x", .CounterType, .vInt (2 ^ 63 - 1)⟩] ⟨"x", .CounterType, .vInt 1⟩ =
      some [⟨"x", .CounterType, .vInt (-(2 ^ 63))⟩] ∧
    (-(2 ^ 63) : Int) ≠ (2 ^ 63 - 1) + 1 := by
  constructor
  · have heval := addLoop_found_counter [] [] ⟨"x", .CounterType, .vInt (2 ^ 63 - 1)⟩
      ⟨"x", .CounterType, .vInt 1⟩ (2 ^ 63 - 1) 1 (by intro y hy; cases hy) ⟨rfl, rfl⟩
      rfl rfl rfl
    simp only [List.nil_append] at heval
    rw [heval]
    have hw : wrap64 ((2 ^ 63 - 1) + 1) = -(2 ^ 63) := by
      rw [wrap64]
      norm_num
    rw [hw]
  · norm_num

/-- C1, amended: for every store state with at most one entry per key that
holds a counter entry `(n, Counter)` with value `v`, `Add (n, Counter, d)`
leaves exactly one `(n, Counter)` entry whose value is the running sum
reduced into the signed 64-bit range, `wrap64 (v + d)` — equal to `v + d`
whenever that sum fits in `int64` (so accumulation, never reset, never
overwritten, up to 64-bit wrap-around). -/
theorem counter_add_accumulates (st : List Metric) (n : String) (v d : Int)
    (hu : UniqueKeys st) (hv : lookupKey st n .CounterType = some (.vInt v)) :
    ∃ st', addLoop st ⟨n, .CounterType, .vInt d⟩ = some st' ∧
      countKey st' n .CounterType = 1 ∧
      lookupKey st' n .CounterType = some (.vInt (wrap64 (v + d))) ∧
      (-(2 ^ 63) ≤ v + d → v + d < 2 ^ 63 →
        lookupKey st' n .CounterType = some (.vInt (v + d))) := by
  obtain ⟨pre, e, post, rfl, hpre, hn, ht, hval⟩ :=
    lookupKey_some_split st n .CounterType _ hv
  have heval := addLoop_found_counter pre post e ⟨n, .CounterType, .vInt d⟩ v d
    hpre ⟨hn, ht⟩ rfl hval rfl
  have hpost := uniqueKeys_post_nomatch pre e post hu
  have hpost' : ∀ x ∈ post, ¬(x.Name = n ∧ x.Type' = MetricType.CounterType) := by
    intro x hx hcon
    exact hpost x hx ⟨hcon.1.trans hn.symm, hcon.2.trans ht.symm⟩
  have hlook : lookupKey (pre ++ { e with Value := .vInt (wrap64 (v + d)) } :: post) n
      .CounterType = some (.vInt (wrap64 (v + d))) := by
    rw [lookupKey_append_nomatch pre _ n .CounterType hpre, lookupKey, if_pos ⟨hn, ht⟩]
  refine ⟨pre ++ { e with Value := .vInt (wrap64 (v + d)) } :: post, heval, ?_, hlook, ?_⟩
  · rw [countKey_append, countKey_eq_zero pre n .CounterType hpre,
      countKey_cons_match post { e with Value := .vInt (wrap64 (v + d)) } n
        .CounterType ⟨hn, ht⟩,
      countKey_eq_zero post n .CounterType hpost']
  · intro h1 h2
    rw [hlook, wrap64_eq_self (v + d) h1 h2]

/-- C1 witness at a concrete input. -/
theorem counter_add_accumulates_witness :
    ∃ st', addLoop [⟨"x", .CounterType, .vInt 1⟩] ⟨"x", .CounterType, .vInt 2⟩ = some st' ∧
      countKey st' "x" .CounterType = 1 ∧
      lookupKey st' "x" .CounterType = some (.vInt (wrap64 (1 + 2))) ∧
      (-(2 ^ 63) ≤ (1 : Int) + 2 → (1 : Int) + 2 < 2 ^ 63 →
        lookupKey st' "x" .CounterType = some (.vInt (1 + 2))) :=
  counter_add_accumulates [⟨"x", .CounterType, .vInt 1⟩] "x" 1 2
    (by rw [UniqueKeys]; exact List.pairwise_singleton _ _) (by decide)

/-- C2: for every store state with at most one entry per key that holds a
gauge entry `(n, Gauge)`, `Add (n, Gauge, v)` replaces the stored value
with `v` (last write wins), leaving exactly one `(n, Gauge)` entry whose
value is the most recently added gauge value. -/
theorem gauge_add_overwrites (st : List Metric) (n : String) (w v : GoValue)
    (hu : UniqueKeys st) (hv : lookupKey st n .GaugeType = some w) :
    ∃ st', addLoop st ⟨n, .GaugeType, v⟩ = some st' ∧
      countKey st' n .GaugeType = 1 ∧
      lookupKey st' n .GaugeType = some v := by
  obtain ⟨pre, e, post, rfl, hpre, hn, ht, hval⟩ :=
    lookupKey_some_split st n .GaugeType w hv
  have heval := addLoop_found_gauge pre post e ⟨n, .GaugeType, v⟩ hpre ⟨hn, ht⟩ rfl
  have hpost := uniqueKeys_post_nomatch pre e post hu
  have hpost' : ∀ x ∈ post, ¬(x.Name = n ∧ x.Type' = MetricType.GaugeType) := by
    intro x hx hcon
    exact hpost x hx ⟨hcon.1.trans hn.symm, hcon.2.trans ht.symm⟩
  refine ⟨pre ++ { e with Value := v } :: post, heval, ?_, ?_⟩
  · rw [countKey_append, countKey_eq_zero pre n .GaugeType hpre,
      countKey_cons_match post { e with Value := v } n .GaugeType ⟨hn, ht⟩,
      countKey_eq_zero post n .GaugeType hpost']
  · rw [lookupKey_append_nomatch pre _ n .GaugeType hpre, lookupKey, if_pos ⟨hn, ht⟩]

/-- C2 witness at a concrete input. -/
theorem gauge_add_overwrites_witness :
    ∃ st', addLoop [⟨"x", .GaugeType, .vFloat 1⟩] ⟨"x", .GaugeType, .vFloat 2⟩ = some st' ∧
      countKey st' "x" .GaugeType = 1 ∧
      lookupKey st' "x" .GaugeType = some (.vFloat 2) :=
  gauge_add_overwrites [⟨"x", .GaugeType, .vFloat 1⟩] "x" (.vFloat 1) (.vFloat 2)
    (by rw [UniqueKeys]; exact List.pairwise_singleton _ _) (by decide)

/-- C3, amended: in the interleaving model of `N` threads each executing
one `Add (n, Counter, 1)` under the store's mutex (held for the entire
scan-and-merge), every reachable state in which all `N` calls have
finished has the store holding exactly one `(n, Counter)` entry whose
value is the wrapped running sum of the `N` increments — exactly `N`
whenever `1 ≤ N < 2^63` — so no increment is ever lost to a
read-modify-write race. -/
theorem concurrent_adds_linearized (N : Nat) (n : String) (s : CState)
    (h : Reaches ⟨n, .CounterType, .vInt 1⟩ (initState N) s) (hdone : s.done = N) :
    s.store = storeAfter n N ∧
    (1 ≤ N → (N : Int) < 2 ^ 63 → s.store = [⟨n, .CounterType, .vInt (N : Int)⟩]) := by
  obtain ⟨hc, hst, hview⟩ := inv_reaches N n s h
  have hlock : s.lock = none := by
    cases hl : s.lock with
    | none => rfl
    | some p =>
      exfalso
      rw [hdone, hl] at hc
      simp only [lockCount] at hc
      omega
  have hw : writesOf s = N := by
    rw [writesOf, hlock, hdone]
    simp
  rw [hw] at hst
  refine ⟨hst, ?_⟩
  intro h1 h2
  have hN0 : ¬(N = 0) := by omega
  have hge : -(2 ^ 63) ≤ (N : Int) := by
    have : (0 : Int) ≤ (N : Int) := Int.natCast_nonneg N
    omega
  rw [hst, storeAfter, if_neg hN0, wrap64_eq_self (N : Int) hge h2]

/-- C3 witness at a concrete input (`N = 1`). -/
theorem concurrent_adds_linearized_witness :
    (⟨storeAfter "x" 1, none, 1 - 1, 1⟩ : CState).store = storeAfter "x" 1 ∧
    (1 ≤ 1 → ((1 : Nat) : Int) < 2 ^ 63 →
      (⟨storeAfter "x" 1, none, 1 - 1, 1⟩ : CState).store =
        [⟨"x", .CounterType, .vInt ((1 : Nat) : Int)⟩]) :=
  concurrent_adds_linearized 1 "x" _ (reach_serial "x" 1 1 (le_refl 1)) rfl

/-- C3, counterexample: the claim's "for every N ... exactly N" fails at
`N = 2^63` — a reachable state in which all `2^63` calls have finished has
the stored value `-(2^63)` (the wrapped sum), not `2^63`. -/
theorem concurrent_adds_exact_cex :
    Reaches ⟨"x", .CounterType, .vInt 1⟩ (initState (2 ^ 63))
      ⟨storeAfter "x" (2 ^ 63), none, 0, 2 ^ 63⟩ ∧
    storeAfter "x" (2 ^ 63) = [⟨"x", .CounterType, .vInt (-(2 ^ 63))⟩] ∧
    (-(2 ^ 63) : Int) ≠ ((2 ^ 63 : Nat) : Int) := by
  refine ⟨?_, ?_, ?_⟩
  · have h := reach_serial "x" (2 ^ 63) (2 ^ 63) (le_refl _)
    simpa using h
  · rw [storeAfter, if_neg (by positivity)]
    have hcast : (((2 ^ 63 : Nat)) : Int) = 2 ^ 63 := by push_cast
    rw [hcast]
    have hw : wrap64 (2 ^ 63) = -(2 ^ 63) := by
      rw [wrap64]
      norm_num
    rw [hw]
  · have hcast : (((2 ^ 63 : Nat)) : Int) = 2 ^ 63 := by push_cast
    rw [hcast]
    norm_num

/-- C4: starting from the empty store, after every finite sequence of
`Add` calls the store has at most one entry per distinct `(name, kind)`
pair, and every further `Add` leaves exactly one entry with the added
metric's key. -/
theorem add_unique_key_invariant (ms : List Metric) (s : MemStorageImpl)
    (h : runAdds ms = some s) :
    UniqueKeys s.metrics ∧
    ∀ (m : Metric) (s' : MemStorageImpl), s.Add m = some s' →
      countKey s'.metrics m.Name m.Type' = 1 := by
  have haf := runAdds_eq_some ms s h
  have hu : UniqueKeys s.metrics :=
    addAllFrom_uniqueKeys ms NewMemStorage.metrics s.metrics
      (by rw [UniqueKeys]; exact List.Pairwise.nil) haf
  refine ⟨hu, ?_⟩
  intro m s' h'
  rw [MemStorageImpl.Add] at h'
  cases hal : addLoop s.metrics m with
  | none => rw [hal] at h'; cases h'
  | some st2 =>
    rw [hal] at h'
    simp only [Option.map_some'] at h'
    obtain rfl := Option.some_injective _ h'
    exact addLoop_countKey_one s.metrics m st2 hu hal

/-- C4 witness at a concrete input. -/
theorem add_unique_key_invariant_witness :
    countKey [⟨"x", .GaugeType, .vFloat 2⟩, ⟨"x", .CounterType, .vInt 5⟩] "x" .GaugeType = 1 :=
  (add_unique_key_invariant [⟨"x", .GaugeType, .vFloat 1⟩, ⟨"x", .CounterType, .vInt 5⟩]
      (MemStorageImpl.mk [⟨"x", .GaugeType, .vFloat 1⟩, ⟨"x", .CounterType, .vInt 5⟩])
      (by decide)).2
    ⟨"x", .GaugeType, .vFloat 2⟩
    (MemStorageImpl.mk [⟨"x", .GaugeType, .vFloat 2⟩, ⟨"x", .CounterType, .vInt 5⟩])
    (by decide)

/-- C5, counterexample: the claim's "for every store" fails when the store
already holds a counter entry named `n` — from the store
`[("x", Counter, 5)]`, adding gauge `"x" = 1.0` and then counter
`"x" = 5` leaves the counter entry at `10`, not `5`. -/
theorem kind_independence_cex :
    addAllFrom [⟨"x", .CounterType, .vInt 5⟩]
      [⟨"x", .GaugeType, .vFloat 1⟩, ⟨"x", .CounterType, .vInt 5⟩] =
      some [⟨"x", .CounterType, .vInt 10⟩, ⟨"x", .GaugeType, .vFloat 1⟩] ∧
    GoValue.vInt 10 ≠ GoValue.vInt 5 := by
  constructor
  · have h1 : addLoop [⟨"x", .CounterType, .vInt 5⟩] ⟨"x", .GaugeType, .vFloat 1⟩ =
        some [⟨"x", .CounterType, .vInt 5⟩, ⟨"x", .GaugeType, .vFloat 1⟩] := by decide
    have h2 : addLoop [⟨"x", .CounterType, .vInt 5⟩, ⟨"x", .GaugeType, .vFloat 1⟩]
        ⟨"x", .CounterType, .vInt 5⟩ =
        some [⟨"x", .CounterType, .vInt (wrap64 (5 + 5))⟩, ⟨"x", .GaugeType, .vFloat 1⟩] := by
      have := addLoop_found_counter [] [⟨"x", .GaugeType, .vFloat 1⟩]
        ⟨"x", .CounterType, .vInt 5⟩ ⟨"x", .CounterType, .vInt 5⟩ 5 5
        (by intro y hy; cases hy) ⟨rfl, rfl⟩ rfl rfl rfl
      simpa using this
    have hw : wrap64 (5 + 5) = 10 := wrap64_eq_self 10 (by norm_num) (by norm_num)
    simp only [addAllFrom, h1, h2, hw]
  · decide

/-- C5, amended: on a store with at most one entry per key and no counter
entry named `n`, adding gauge `(n, v)` and counter `(n, c)` in either
order yields distinct entries for the two kinds — lookup of `(n, Gauge)`
gives `v`, lookup of `(n, Counter)` gives `c`, each key has exactly one
entry — and in general an `Add` never changes the stored value of any key
other than its own. -/
theorem kind_independence (st : List Metric) (n : String) (v c : GoValue)
    (hu : UniqueKeys st) (hnc : lookupKey st n .CounterType = none) :
    (∀ st1 st2, addLoop st ⟨n, .GaugeType, v⟩ = some st1 →
      addLoop st1 ⟨n, .CounterType, c⟩ = some st2 →
      lookupKey st2 n .GaugeType = some v ∧ lookupKey st2 n .CounterType = some c ∧
      countKey st2 n .GaugeType = 1 ∧ countKey st2 n .CounterType = 1) ∧
    (∀ st1 st2, addLoop st ⟨n, .CounterType, c⟩ = some st1 →
      addLoop st1 ⟨n, .GaugeType, v⟩ = some st2 →
      lookupKey st2 n .GaugeType = some v ∧ lookupKey st2 n .CounterType = some c ∧
      countKey st2 n .GaugeType = 1 ∧ countKey st2 n .CounterType = 1) ∧
    (∀ (m : Metric) (st' : List Metric) (t : MetricType),
      addLoop st m = some st' → ¬(n = m.Name ∧ t = m.Type') →
      lookupKey st' n t = lookupKey st n t) := by
  refine ⟨?_, ?_, ?_⟩
  · intro st1 st2 h1 h2
    have hu1 : UniqueKeys st1 := addLoop_uniqueKeys st _ st1 hu h1
    have hnc1 : lookupKey st1 n .CounterType = none := by
      rw [addLoop_lookup_frame st _ st1 n .CounterType h1
        (fun hcon => nomatch hcon.2)]
      exact hnc
    have hkC : ¬(n = (⟨n, .CounterType, c⟩ : Metric).Name ∧
        MetricType.GaugeType = (⟨n, .CounterType, c⟩ : Metric).Type') :=
      fun hcon => nomatch hcon.2
    obtain ⟨rfl, hlookC, hcntC⟩ := addLoop_new_key st1 ⟨n, .CounterType, c⟩ st2 h2 hnc1
    refine ⟨?_, hlookC, ?_, ?_⟩
    · rw [addLoop_lookup_frame st1 _ _ n .GaugeType h2 hkC]
      exact addLoop_gauge_lookup st ⟨n, .GaugeType, v⟩ st1 h1 rfl
    · rw [addLoop_count_frame st1 _ _ n .GaugeType h2 hkC]
      exact addLoop_countKey_one st ⟨n, .GaugeType, v⟩ st1 hu h1
    · rw [hcntC, countKey_eq_zero st1 n .CounterType
        ((lookupKey_eq_none_iff st1 n .CounterType).mp hnc1)]
  · intro st1 st2 h1 h2
    have hu1 : UniqueKeys st1 := addLoop_uniqueKeys st _ st1 hu h1
    obtain ⟨rfl, hlookC, hcntC⟩ := addLoop_new_key st ⟨n, .CounterType, c⟩ st1 h1 hnc
    have hkC : ¬(n = (⟨n, .GaugeType, v⟩ : Metric).Name ∧
        MetricType.CounterType = (⟨n, .GaugeType, v⟩ : Metric).Type') :=
      fun hcon => nomatch hcon.2
    refine ⟨?_, ?_, ?_, ?_⟩
    · exact addLoop_gauge_lookup _ ⟨n, .GaugeType, v⟩ st2 h2 rfl
    · rw [addLoop_lookup_frame _ _ st2 n .CounterType h2 hkC]
      exact hlookC
    · exact addLoop_countKey_one _ ⟨n, .GaugeType, v⟩ st2 hu1 h2
    · rw [addLoop_count_frame _ _ st2 n .CounterType h2 hkC, hcntC,
        countKey_eq_zero st n .CounterType ((lookupKey_eq_none_iff st n .CounterType).mp hnc)]
  · intro m st' t h hk
    exact addLoop_lookup_frame st m st' n t h (fun hcon => hk hcon)

/-- C5 witness at a concrete input. -/
theorem kind_independence_witness :
    lookupKey [⟨"x", .GaugeType, .vFloat 1⟩, ⟨"x", .CounterType, .vInt 5⟩] "x"
        .GaugeType = some (.vFloat 1) ∧
    lookupKey [⟨"x", .GaugeType, .vFloat 1⟩, ⟨"x", .CounterType, .vInt 5⟩] "x"
        .CounterType = some (.vInt 5) ∧
    countKey [⟨"x", .GaugeType, .vFloat 1⟩, ⟨"x", .CounterType, .vInt 5⟩] "x" .GaugeType = 1 ∧
    countKey [⟨"x", .GaugeType, .vFloat 1⟩, ⟨"x", .CounterType, .vInt 5⟩] "x"
        .CounterType = 1 :=
  (kind_independence [] "x" (.vFloat 1) (.vInt 5)
      (by rw [UniqueKeys]; exact List.Pairwise.nil) rfl).1
    [⟨"x", .GaugeType, .vFloat 1⟩] [⟨"x", .GaugeType, .vFloat 1⟩, ⟨"x", .CounterType, .vInt 5⟩]
    (by decide) (by decide)

/-- C6: after any finite sequence of `Add` calls on a freshly created
store, `Get` returns the stored entries with their `(name, kind)` keys in
first-insertion order — each new key appended at the end, an update never
moving a key — and `Get` on a fresh store returns the empty sequence. -/
theorem get_first_insertion_order (ms : List Metric) (s : MemStorageImpl)
    (h : runAdds ms = some s) :
    s.Get.map keyOf = extendKeys [] (ms.map keyOf) ∧
    NewMemStorage.Get = [] := by
  refine ⟨?_, rfl⟩
  exact addAllFrom_keys ms NewMemStorage.metrics s.metrics (runAdds_eq_some ms s h)

/-- C6 witness at a concrete input. -/
theorem get_first_insertion_order_witness :
    (MemStorageImpl.mk [⟨"x", .CounterType, .vInt 3⟩, ⟨"x", .GaugeType, .vFloat 1⟩]).Get.map
        keyOf =
      extendKeys []
        ([⟨"x", .CounterType, .vInt 1⟩, ⟨"x", .GaugeType, .vFloat 1⟩,
          ⟨"x", .CounterType, .vInt 2⟩].map keyOf) ∧
    NewMemStorage.Get = [] :=
  get_first_insertion_order
    [⟨"x", .CounterType, .vInt 1⟩, ⟨"x", .GaugeType, .vFloat 1⟩, ⟨"x", .CounterType, .vInt 2⟩]
    (MemStorageImpl.mk [⟨"x", .CounterType, .vInt 3⟩, ⟨"x", .GaugeType, .vFloat 1⟩])
    (by decide)

/-- C7: `Get` returns an independent copy — in the heap model of slice
backing arrays, the snapshot array returned by `Get` holds the store's
entries at the time of the call, and a subsequent `Add` (of any metric)
writes only to the store's array, leaving every element of the snapshot —
name, kind and value — unchanged. -/
theorem get_snapshot_isolated (h : Heap) (storeId : Nat)
    (hs : storeId < h.arrays.length) (m : Metric) (h1 : Heap) (snapId : Nat)
    (hget : hGet h storeId = (h1, snapId)) (h2 : Heap)
    (hadd : hAdd h1 storeId m = some h2) :
    h1.read snapId = h.read storeId ∧ h2.read snapId = h.read storeId := by
  rw [hGet, Heap.alloc] at hget
  injection hget with hh hsnap
  subst hh
  subst hsnap
  have hne : storeId ≠ h.arrays.length := Nat.ne_of_lt hs
  have hread1 : (Heap.mk (h.arrays ++ [h.read storeId])).read h.arrays.length =
      h.read storeId := by
    rw [Heap.read]
    rw [List.getD_eq_getElem?_getD, List.getElem?_append_right (le_refl _)]
    simp
  refine ⟨hread1, ?_⟩
  rw [hAdd] at hadd
  cases hal : addLoop ((Heap.mk (h.arrays ++ [h.read storeId])).read storeId) m with
  | none => rw [hal] at hadd; cases hadd
  | some st' =>
    rw [hal] at hadd
    simp only [Option.map_some'] at hadd
    obtain rfl := Option.some_injective _ hadd
    rw [Heap.write, Heap.read, List.getD_eq_getElem?_getD,
      List.getElem?_set_ne hne]
    rw [Heap.read, List.getD_eq_getElem?_getD] at hread1
    exact hread1

/-- C7 witness at a concrete input. -/
theorem get_snapshot_isolated_witness :
    (Heap.mk [[⟨"x", .GaugeType, .vFloat 1⟩], [⟨"x", .GaugeType, .vFloat 1⟩]]).read 1 =
      (Heap.mk [[⟨"x", .GaugeType, .vFloat 1⟩]]).read 0 ∧
    (Heap.mk [[⟨"x", .GaugeType, .vFloat 2⟩], [⟨"x", .GaugeType, .vFloat 1⟩]]).read 1 =
      (Heap.mk [[⟨"x", .GaugeType, .vFloat 1⟩]]).read 0 :=
  get_snapshot_isolated (Heap.mk [[⟨"x", .GaugeType, .vFloat 1⟩]]) 0 (by decide)
    ⟨"x", .GaugeType, .vFloat 2⟩
    (Heap.mk [[⟨"x", .GaugeType, .vFloat 1⟩], [⟨"x", .GaugeType, .vFloat 1⟩]]) 1 rfl
    (Heap.mk [[⟨"x", .GaugeType, .vFloat 2⟩], [⟨"x", .GaugeType, .vFloat 1⟩]]) (by decide)

/-- C8: under the caller contract that every metric's dynamic value
matches its kind (`int64` for counters, `float64` for gauges), any
sequence of `Add` calls on a fresh store succeeds — in particular the
`int64` type assertion in the counter branch never panics — and `Get` is a
total function with no precondition. -/
theorem add_get_total (ms : List Metric) (h : ∀ m ∈ ms, wellTyped m = true) :
    ∃ s, runAdds ms = some s ∧ s.Get = s.metrics := by
  obtain ⟨st', haf, _⟩ := addAllFrom_total ms NewMemStorage.metrics
    (fun e he => absurd he (List.not_mem_nil e)) h
  refine ⟨MemStorageImpl.mk st', ?_, rfl⟩
  rw [runAdds, haf]
  rfl

/-- C8 witness at a concrete input. -/
theorem add_get_total_witness :
    ∃ s, runAdds [⟨"x", .CounterType, .vInt 1⟩, ⟨"y", .GaugeType, .vFloat 2⟩,
        ⟨"x", .CounterType, .vInt 3⟩] = some s ∧ s.Get = s.metrics :=
  add_get_total [⟨"x", .CounterType, .vInt 1⟩, ⟨"y", .GaugeType, .vFloat 2⟩,
    ⟨"x", .CounterType, .vInt 3⟩] (by decide)

/-- C9: the frame of `Add` — a successful `Add m` never shrinks the store,
leaves every entry whose key differs from `m`'s unchanged at its position,
preserves the name and kind of every entry at every position, and changes
at most one position (the matching entry's value). -/
theorem add_frame (st : List Metric) (m : Metric) (st' : List Metric)
    (h : addLoop st m = some st') :
    st.length ≤ st'.length ∧
    (∀ (i : Nat) (e : Metric), st[i]? = some e →
      ¬(e.Name = m.Name ∧ e.Type' = m.Type') → st'[i]? = some e) ∧
    (∀ (i : Nat) (e : Metric), st[i]? = some e →
      ∃ e', st'[i]? = some e' ∧ e'.Name = e.Name ∧ e'.Type' = e.Type') ∧
    (∀ (i j : Nat) (ei ej : Metric), st[i]? = some ei → st[j]? = some ej →
      st'[i]? ≠ some ei → st'[j]? ≠ some ej → i = j) := by
  rcases addLoop_cases st m st' h with ⟨rfl, hno⟩ | ⟨pre, e, post, v', rfl, rfl, hpre, he⟩
  · have hpres : ∀ (i : Nat) (x : Metric), st[i]? = some x → (st ++ [m])[i]? = some x := by
      intro i x hix
      have hilt : i < st.length := by
        by_contra hge
        rw [List.getElem?_eq_none (Nat.le_of_not_lt hge)] at hix
        cases hix
      rw [List.getElem?_append_left hilt]
      exact hix
    refine ⟨by simp, fun i x hix _ => hpres i x hix,
      fun i x hix => ⟨x, hpres i x hix, rfl, rfl⟩, ?_⟩
    intro i j ei ej hi hj hni hnj
    exact absurd (hpres i ei hi) hni
  · have hsame : ∀ i, i ≠ pre.length →
        (pre ++ { e with Value := v' } :: post)[i]? = (pre ++ e :: post)[i]? :=
      fun i hi => getElem?_middle_ne pre { e with Value := v' } e post i hi
    have hmid : (pre ++ e :: post)[pre.length]? = some e := getElem?_middle pre e post
    have hmid' : (pre ++ { e with Value := v' } :: post)[pre.length]? =
        some { e with Value := v' } := getElem?_middle pre { e with Value := v' } post
    refine ⟨by simp, ?_, ?_, ?_⟩
    · intro i x hix hnk
      by_cases hi : i = pre.length
      · subst hi
        rw [hmid] at hix
        obtain rfl := Option.some_injective _ hix
        exact (hnk he).elim
      · rw [hsame i hi]
        exact hix
    · intro i x hix
      by_cases hi : i = pre.length
      · subst hi
        rw [hmid] at hix
        obtain rfl := Option.some_injective _ hix
        exact ⟨{ e with Value := v' }, hmid', rfl, rfl⟩
      · refine ⟨x, ?_, rfl, rfl⟩
        rw [hsame i hi]
        exact hix
    · intro i j ei ej hi hj hni hnj
      by_cases hii : i = pre.length
      · by_cases hjj : j = pre.length
        · exact hii.trans hjj.symm
        · exact absurd (by rw [hsame j hjj]; exact hj) hnj
      · exact absurd (by rw [hsame i hii]; exact hi) hni

/-- C9 witness at a concrete input. -/
theorem add_frame_witness :
    ([⟨"a", .GaugeType, .vFloat 1⟩, ⟨"b", .CounterType, .vInt 3⟩] : List Metric)[0]? =
      some ⟨"a", .GaugeType, .vFloat 1⟩ :=
  (add_frame [⟨"a", .GaugeType, .vFloat 1⟩, ⟨"b", .CounterType, .vInt 1⟩]
      ⟨"b", .CounterType, .vInt 2⟩
      [⟨"a", .GaugeType, .vFloat 1⟩, ⟨"b", .CounterType, .vInt 3⟩] (by decide)).2.1
    0 ⟨"a", .GaugeType, .vFloat 1⟩ (by decide) (by decide)

/-- C10: the store performs no validation of the metric name — a metric
named `""` is stored on an empty store like any other metric, two
counter updates named `""` merge by (wrapped) accumulation like any other
key, and an `Add` of a metric named `""` never changes the stored value of
any key with a non-empty name. -/
theorem empty_name_ordinary_key :
    (∀ (t : MetricType) (v : GoValue), addLoop [] ⟨"", t, v⟩ = some [⟨"", t, v⟩]) ∧
    (∀ a b : Int,
      addLoop [⟨"", .CounterType, .vInt a⟩] ⟨"", .CounterType, .vInt b⟩ =
        some [⟨"", .CounterType, .vInt (wrap64 (a + b))⟩]) ∧
    (∀ (st st' : List Metric) (t : MetricType) (v : GoValue) (n : String) (t' : MetricType),
      addLoop st ⟨"", t, v⟩ = some st' → n ≠ "" →
      lookupKey st' n t' = lookupKey st n t') := by
  refine ⟨fun t v => rfl, ?_, ?_⟩
  · intro a b
    have heval := addLoop_found_counter [] [] ⟨"", .CounterType, .vInt a⟩
      ⟨"", .CounterType, .vInt b⟩ a b (by intro y hy; cases hy) ⟨rfl, rfl⟩ rfl rfl rfl
    simpa using heval
  · intro st st' t v n t' h hn
    exact addLoop_lookup_frame st _ st' n t' h (fun hcon => hn hcon.1)

/-- C10 witness at a concrete input. -/
theorem empty_name_ordinary_key_witness :
    lookupKey [⟨"y", .CounterType, .vInt 3⟩, ⟨"", .GaugeType, .vFloat 7⟩] "y" .CounterType =
      lookupKey [⟨"y", .CounterType, .vInt 3⟩] "y" .CounterType :=
  empty_name_ordinary_key.2.2 [⟨"y", .CounterType, .vInt 3⟩]
    [⟨"y", .CounterType, .vInt 3⟩, ⟨"", .GaugeType, .vFloat 7⟩] .GaugeType (.vFloat 7)
    "y" .CounterType (by decide) (by decide)

end MetricsSvc
